import Mathlib

/-!
Verification of the retrieval-and-mapping core of the Patpat package.

The Python modules `patpat/utility.py`, `patpat/mapper.py`, `patpat/retriever.py`
and `patpat/hub.py` are shallowly embedded below: strings become `List Char`,
the regex searches of `usi_split` / `usi_detect` become executable scanning
functions with Python's leftmost-search semantics, exceptions become `Except`
values, and the network is abstracted as a page/outcome oracle passed in as a
function.  Character classes (`\d`, `\s`, case-insensitive `pxd`) are modelled
over their ASCII meaning.
-/

namespace Patpat

/-- Python exception kinds that the embedded code can raise or catch.
`attributeError` is what a failed `re.search(...).group()/.end()` raises,
`typeError` is raised by the `request_word` setters, `requestException` models
`requests.exceptions.RequestException`, and `bufferError` is the wrapper
exception `MapperHub.mapping` re-raises. -/
inductive PyErr where
  | attributeError
  | typeError
  | requestException
  | bufferError
deriving DecidableEq, Repr

instance {ε α : Type} [DecidableEq ε] [DecidableEq α] : DecidableEq (Except ε α) :=
  fun a b =>
    match a, b with
    | .error e1, .error e2 =>
      if h : e1 = e2 then isTrue (by rw [h]) else isFalse (by simp [h])
    | .ok a1, .ok a2 =>
      if h : a1 = a2 then isTrue (by rw [h]) else isFalse (by simp [h])
    | .error _, .ok _ => isFalse (by simp)
    | .ok _, .error _ => isFalse (by simp)

/-- ASCII model of Python's regex whitespace class `\s`. -/
def pySpace (c : Char) : Bool :=
  c = ' ' || c = '\t' || c = '\n' || c = '\r' || c = '\x0b' || c = '\x0c'

/-- ASCII model of Python's regex digit class `\d`. -/
def pyDigit (c : Char) : Bool :=
  '0' ≤ c && c ≤ '9'

/-- The literal `mzspec:` that `usi_split`'s first regex looks behind for. -/
def mzspecStr : List Char := ['m', 'z', 's', 'p', 'e', 'c', ':']

/-- Backtracking semantics of the non-greedy `\S*?(?=:)` at a fixed position:
the shortest run of non-whitespace characters that is immediately followed by
a colon.  Returns that run, `none` when a whitespace character or the end of
the string is reached before a colon. -/
def scanToColon : List Char → Option (List Char)
  | [] => none
  | c :: rest =>
    if c = ':' then some []
    else if pySpace c then none
    else (scanToColon rest).map (c :: ·)

/-- `re.search('(?<=mzspec:)\S*?(?=:)', s)`: scan start positions left to
right; at the first position that is preceded by `mzspec:` and from which a
colon is reachable through non-whitespace characters, return the offset of
the match start (relative to the front of the scanned list) together with the
matched collection text. -/
def mzSearch : List Char → Option (Nat × List Char)
  | [] => none
  | c :: rest =>
    if mzspecStr.isPrefixOf (c :: rest) then
      match scanToColon (List.drop 7 (c :: rest)) with
      | some coll => some (7, coll)
      | none => (mzSearch rest).map (fun pr => (pr.1 + 1, pr.2))
    else (mzSearch rest).map (fun pr => (pr.1 + 1, pr.2))

/-- Number of leading regex-digit characters: the greedy `\d*`. -/
def digitsCount : List Char → Nat
  | [] => 0
  | c :: rest => if pyDigit c then digitsCount rest + 1 else 0

def indexStr : List Char := ['i', 'n', 'd', 'e', 'x']
def scanStr : List Char := ['s', 'c', 'a', 'n']
def traceStr : List Char := ['t', 'r', 'a', 'c', 'e']
def nativeIdStr : List Char := ['n', 'a', 't', 'i', 'v', 'e', 'I', 'd']

/-- The four run/index keywords of `(index|scan|trace|nativeId):\d*`. -/
def kwStrs : List (List Char) := [indexStr, scanStr, traceStr, nativeIdStr]

/-- Attempt of `(index|scan|trace|nativeId):\d*` anchored at the front of `u`:
the alternatives in order (their first letters are pairwise distinct, so at
most one can fit), then the greedy digit run.  Returns the match length. -/
def kwMatchLen (u : List Char) : Option Nat :=
  if (indexStr ++ [':']).isPrefixOf u then
    some (6 + digitsCount (u.drop 6))
  else if (scanStr ++ [':']).isPrefixOf u then
    some (5 + digitsCount (u.drop 5))
  else if (traceStr ++ [':']).isPrefixOf u then
    some (6 + digitsCount (u.drop 6))
  else if (nativeIdStr ++ [':']).isPrefixOf u then
    some (9 + digitsCount (u.drop 9))
  else none

/-- `re.search('(index|scan|trace|nativeId):\d*', s)`: leftmost match,
returned as (start offset, end offset). -/
def kwSearch : List Char → Option (Nat × Nat)
  | [] => none
  | c :: rest =>
    match kwMatchLen (c :: rest) with
    | some len => some (0, len)
    | none => (kwSearch rest).map (fun pr => (pr.1 + 1, pr.2 + 1))

/-- Python's slice `s[a:b]` for natural indices. -/
def pySlice (a b : Nat) (s : List Char) : List Char :=
  (s.take b).drop a

/-- The components dictionary built by `utility.usi_split`. -/
structure USIComponents where
  collection : List Char
  msRunIndex : List Char
  interp : List Char
deriving DecidableEq, Repr

/-- `utility.usi_split`: both `re.search` failure modes surface as
`AttributeError` (`.group()` / `.end()` on `None`). -/
def usi_split (s : List Char) : Except PyErr USIComponents :=
  match mzSearch s with
  | none => .error .attributeError
  | some (i, coll) =>
    match kwSearch s with
    | none => .error .attributeError
    | some (_, split2) =>
      .ok ⟨coll, pySlice (i + coll.length + 1) split2 s, s.drop (split2 + 1)⟩

/-- Case-insensitive substring search for the fixed pattern
`re.search("pxd", cs, re.I)`, over ASCII lowercasing. -/
def containsSeq (pat : List Char) : List Char → Bool
  | [] => pat.isEmpty
  | c :: rest => pat.isPrefixOf (c :: rest) || containsSeq pat rest

def pxdStr : List Char := ['p', 'x', 'd']

def containsPXD (cs : List Char) : Bool :=
  containsSeq pxdStr (cs.map Char.toLower)

/-- `utility.usi_detect`, run behaviourally: the `try` block catches exactly
`AttributeError`; any other exception would propagate. -/
def usi_detectE (s : List Char) : Except PyErr Bool :=
  match usi_split s with
  | .error .attributeError => .ok false
  | .error e => .error e
  | .ok c =>
    .ok (containsPXD c.collection && !c.msRunIndex.isEmpty && !c.interp.isEmpty)

/-- `utility.usi_detect` as the boolean predicate the rest of the package
uses (its only failure mode, `AttributeError`, is caught internally). -/
def usi_detect (s : List Char) : Bool :=
  match usi_split s with
  | .error _ => false
  | .ok c => containsPXD c.collection && !c.msRunIndex.isEmpty && !c.interp.isEmpty

/-- Reassembly `mzspec:<collection>:<msRun+index>:<interpretation>` of parsed
components, as in the round-trip property. -/
def reassemble (c : USIComponents) : List Char :=
  mzspecStr ++ c.collection ++ ':' :: c.msRunIndex ++ ':' :: c.interp

/-! ## `Mapper.retriever_running` (mapper.py)

The wrapped `any_retriever.retrieve()` call either succeeds or raises a
`requests.exceptions.RequestException`; `outcome n` tells whether the n-th
invocation (0-based) succeeds.  The loop below mirrors
`t = 0; while t <= overtime: t += 1; try: ...` exactly; `calls` counts the
invocations of `retrieve`.  The fuel argument equals the maximal number of
remaining loop iterations (`overtime + 1 - t`), so it never runs out before
the loop condition fails. -/

def rr_loop (outcome : Nat → Bool) (overtime : Nat) :
    Nat → Nat → Nat → Bool → Nat × Bool
  | 0, _, calls, flag => (calls, flag)
  | fuel + 1, t, calls, flag =>
    if t ≤ overtime then
      if outcome calls then (calls + 1, flag)
      else
        rr_loop outcome overtime fuel (t + 1) (calls + 1)
          (if overtime < t + 1 then true else flag)
    else (calls, flag)

/-- `Mapper.retriever_running(retriever, overtime)`: returns how many times
`retrieve` was invoked and the `flag` handed back to the caller (`true`
meaning the retries were exhausted).  A `RequestException` is always caught,
so the wrapper itself never raises one. -/
def retriever_running (outcome : Nat → Bool) (overtime : Nat) : Nat × Bool :=
  rr_loop outcome overtime (overtime + 1) 0 0 false

/-! ## Paginated peptide retrieval (retriever.py)

`PridePeptideRetriever.retrieve` requests page `page`, records
`json()['_embedded']['spectraevidences']` and stops at the first `KeyError`
(absent container).  `IProXPeptideRetriever.retrieve` requests `pageNumber`,
raises `RequestException` on a non-ok status, records a non-empty JSON body
and stops at an empty one.  A page oracle stands in for the network; `fuel`
bounds the loop, with `none` meaning the loop has not terminated within
`fuel` requests (the code would keep requesting).  Results are
(number of requests made, recorded (page, rows) entries in order). -/

def pride_retrieve_loop (pages : Nat → Option α) :
    Nat → Nat → Option (Nat × List (Nat × α))
  | 0, _ => none
  | fuel + 1, page =>
    match pages page with
    | none => some (1, [])
    | some rows =>
      (pride_retrieve_loop pages fuel (page + 1)).map
        (fun pr => (pr.1 + 1, (page, rows) :: pr.2))

def iprox_retrieve_loop (pages : Nat → Except Unit (Option α)) :
    Nat → Nat → Option (Except PyErr (Nat × List (Nat × α)))
  | 0, _ => none
  | fuel + 1, page =>
    match pages page with
    | .error _ => some (.error .requestException)
    | .ok none => some (.ok (1, []))
    | .ok (some rows) =>
      (iprox_retrieve_loop pages fuel (page + 1)).map
        (fun r => r.map (fun pr => (pr.1 + 1, (page, rows) :: pr.2)))

/-- A stub page source: `k` non-empty pages starting at page `start`,
followed by pages lacking the results container. -/
def stub_pages (rows : Nat → α) (start k : Nat) : Nat → Option α :=
  fun p => if p < start + k then some (rows p) else none

/-- The same stub seen through the iProX status/body interface: every page is
delivered with an ok status, the past-the-end pages with an empty JSON body. -/
def stub_pagesE (rows : Nat → α) (start k : Nat) : Nat → Except Unit (Option α) :=
  fun p => .ok (stub_pages rows start k p)

/-! ## Project retrievers (retriever.py)

`PrideProjectRetriever.retrieve` / `IProXProjectRetriever.retrieve` issue one
request; on an ok status the JSON body becomes `self.response`, on a non-ok
status they log an error and set `self.response = dict()` — `none` below —
and return normally. -/

def pride_project_retrieve (ok : Bool) (body : α) : Except PyErr (Option α) :=
  if ok then .ok (some body) else .ok none

def iprox_project_retrieve (ok : Bool) (body : α) : Except PyErr (Option α) :=
  if ok then .ok (some body) else .ok none

/-! ## Organism filtering (mapper.py) -/

/-- A PRIDE project record: its `accession` field and the accessions of its
`organisms` list. -/
structure PrideProject where
  accession : String
  organisms : List String
deriving DecidableEq, Repr

/-- `del_projects`: accessions of the records whose organism accessions do
not contain the configured organism's accession. -/
def pride_del_list (orgAcc : String) (base : List (String × PrideProject)) :
    List String :=
  (base.map Prod.snd).filterMap
    (fun p => if orgAcc ∈ p.organisms then none else some p.accession)

/-- `dict.pop(a)` on an association list (the key is present under the
well-keyed hypotheses of the theorems below). -/
def eraseKey (base : List (String × PrideProject)) (a : String) :
    List (String × PrideProject) :=
  base.eraseP (fun kv => kv.1 == a)

/-- `PrideMapper.filtering`: collect `del_projects`, then pop each one. -/
def pride_filtering (orgAcc : String) (base : List (String × PrideProject)) :
    List (String × PrideProject) :=
  (pride_del_list orgAcc base).foldl eraseKey base

/-- One entry of an iProX project's `species` list. -/
structure IProXSpecies where
  accession : String
  name : String
deriving DecidableEq, Repr

/-- An iProX project record: `accession.value` and its `species` list. -/
structure IProXProject where
  accessionValue : String
  species : List IProXSpecies
deriving DecidableEq, Repr

/-- The comprehension filter of `IProXMapper.filtering`: the configured
organism accession must appear among the names of the species entries tagged
with the NEWT CV accession `MS:1001467`. -/
def iprox_keep (orgAcc : String) (p : IProXProject) : Bool :=
  (p.species.filterMap
    (fun i => if i.accession = "MS:1001467" then some i.name else none)).contains orgAcc

/-- The `projects` list built by `IProXMapper.filtering`. -/
def iprox_projects_list (orgAcc : String) (base : List (String × IProXProject)) :
    List String :=
  (base.map Prod.snd).filterMap
    (fun p => if iprox_keep orgAcc p then some p.accessionValue else none)

/-- `self._project_base[p]`: dictionary lookup, `none` on a missing key
(Python's `KeyError`). -/
def lookupKey (base : List (String × IProXProject)) (a : String) :
    Option IProXProject :=
  (base.find? (fun kv => kv.1 == a)).map Prod.snd

/-- The rebuild loop `for p in projects: project_base[p] = self._project_base[p]`. -/
def lookupAll (base : List (String × IProXProject)) :
    List String → Option (List (String × IProXProject))
  | [] => some []
  | a :: rest =>
    match lookupKey base a with
    | none => none
    | some p => (lookupAll base rest).map ((a, p) :: ·)

/-- `IProXMapper.filtering`. -/
def iprox_filtering (orgAcc : String) (base : List (String × IProXProject)) :
    Option (List (String × IProXProject)) :=
  lookupAll base (iprox_projects_list orgAcc base)

/-! ## Resume log (hub.py `MapperHub._load_tmp` + `mapping`)

A loaded resume entry is a `(peptide, usi-or-the-text-None)` pair.  In
`MapperHub.mapping` the recorded peptides are subtracted from the
outstanding list (`list(set(peptides) - tmp_peptides)`, modelled as
dedup-then-filter since only membership survives the `set`), the surviving
tmp entries are re-validated with `usi_detect`, the remaining peptides are
fetched and their rows filtered with `usi_detect`
(`Mapper.mapping2peptides`), and the re-validated tmp rows are appended
(`peptides_level.extend(peptide_tmp)`). -/

def noneStr : List Char := ['N', 'o', 'n', 'e']

def mapping_with_resume (fetch : List Char → List (List Char × List Char))
    (peptides : List (List Char)) (tmp : List (List Char × List Char)) :
    List (List Char) × List (List Char × List Char) :=
  let tmpPeps := tmp.map Prod.fst
  let remaining := peptides.eraseDups.filter (fun p => !tmpPeps.contains p)
  let fetched := (remaining.flatMap fetch).filter (fun r => usi_detect r.2)
  let loaded := tmp.filter (fun e => usi_detect e.2)
  (remaining, fetched ++ loaded)

/-! ## Task coordinator (hub.py `MapperHub`) -/

inductive TaskState where
  | Preparation
  | Running
  | Success
  | Error
deriving DecidableEq, Repr

/-- Forward progress measure on task states: `Success` and `Error` are both
terminal. -/
def stateRank : TaskState → Nat
  | .Preparation => 0
  | .Running => 1
  | .Success => 2
  | .Error => 2

/-- The hub simulation: current `config['state']` plus the sequence of states
durably written to `patpat_env/logs/tasks.json` by `_set_task_info`, in
order. -/
structure HubSim where
  state : TaskState
  recorded : List TaskState
deriving DecidableEq, Repr

def hubRecord (h : HubSim) : HubSim :=
  { h with recorded := h.recorded ++ [h.state] }

def hubSetState (s : TaskState) (h : HubSim) : HubSim :=
  { h with state := s }

/-- `MapperHub.__init__`: `_set_mapping_config` writes
`config['state'] = 'Preparation'` and `_set_task_info` records it. -/
def hub_construct : HubSim :=
  hubRecord (hubSetState .Preparation ⟨.Preparation, []⟩)

/-- `MapperHub.mapping`: set and record `Running`; run the mappers
(`outcome`); on success set and record `Success`; on any exception set and
record `Error` and re-raise a `BufferError` to the caller. -/
def hub_mapping (outcome : Except PyErr Unit) (h : HubSim) :
    HubSim × Option PyErr :=
  let h := hubRecord (hubSetState .Running h)
  match outcome with
  | .ok _ => (hubRecord (hubSetState .Success h), none)
  | .error _ => (hubRecord (hubSetState .Error h), some .bufferError)

def hub_run (outcome : Except PyErr Unit) : HubSim × Option PyErr :=
  hub_mapping outcome hub_construct

/-! ## iProX peptide request word (retriever.py / mapper.py) -/

/-- `IProXPeptideRetriever.request_word` setter: words shorter than 7
characters raise `TypeError` before any request is built. -/
def iprox_request_word (w : List Char) : Except PyErr (List Char) :=
  if w.length < 7 then .error .typeError else .ok w

/-- The per-peptide loop of `IProXMapper.mapping2peptides`: for each peptide
the request word is set first (possibly raising) and only then is the query
issued (`fetch`).  An uncaught `TypeError` aborts the loop. -/
def iprox_mapping2peptides (fetch : List Char → List (List Char × List Char)) :
    List (List Char) → Except PyErr (List (List Char × List Char))
  | [] => .ok []
  | p :: rest =>
    match iprox_request_word p with
    | .error e => .error e
    | .ok w =>
      (iprox_mapping2peptides fetch rest).map (fun acc => fetch w ++ acc)

/-! ## Concrete data used by the witnesses -/

/-- `mzspec:PXD000001:index:5:PEP`, a well-formed USI. -/
def exUSI : List Char :=
  ['m', 'z', 's', 'p', 'e', 'c', ':', 'P', 'X', 'D', '0', '0', '0', '0', '0',
   '1', ':', 'i', 'n', 'd', 'e', 'x', ':', '5', ':', 'P', 'E', 'P']

/-- Two PRIDE project records, one carrying taxonomy accession 9606, one
carrying 10090. -/
def pbaseW : List (String × PrideProject) :=
  [("PXD000001", ⟨"PXD000001", ["9606"]⟩),
   ("PXD000002", ⟨"PXD000002", ["10090"]⟩)]

/-- Two iProX project records, one whose `MS:1001467`-tagged species name is
9606, one whose is 10090. -/
def ibaseW : List (String × IProXProject) :=
  [("PXD900001", ⟨"PXD900001", [⟨"MS:1001467", "9606"⟩]⟩),
   ("PXD900002", ⟨"PXD900002", [⟨"MS:1001467", "10090"⟩]⟩)]

end Patpat

namespace Patpat

/-! ## General lemmas -/

theorem contains_iff_mem {α : Type} [BEq α] [LawfulBEq α] {l : List α} {a : α} :
    l.contains a = true ↔ a ∈ l := by
  unfold List.contains
  exact List.elem_iff

theorem contains_eq_false_iff {α : Type} [BEq α] [LawfulBEq α] {l : List α} {a : α} :
    l.contains a = false ↔ a ∉ l := by
  constructor
  · intro h hm
    rw [contains_iff_mem.mpr hm] at h
    cases h
  · intro h
    cases hc : l.contains a
    · rfl
    · exact absurd (contains_iff_mem.mp hc) h

theorem nodup_key_unique {α β : Type} {l : List (α × β)} {e1 e2 : α × β}
    (hnd : (l.map Prod.fst).Nodup) (h1 : e1 ∈ l) (h2 : e2 ∈ l) (hk : e1.1 = e2.1) :
    e1.2 = e2.2 := by
  induction l with
  | nil => cases h1
  | cons kv rest ih =>
    rw [List.map_cons, List.nodup_cons] at hnd
    rcases List.mem_cons.mp h1 with r1 | m1 <;> rcases List.mem_cons.mp h2 with r2 | m2
    · rw [r1, r2]
    · exfalso; apply hnd.1
      rw [← r1, hk]
      exact List.mem_map.mpr ⟨e2, m2, rfl⟩
    · exfalso; apply hnd.1
      rw [← r2, ← hk]
      exact List.mem_map.mpr ⟨e1, m1, rfl⟩
    · exact ih hnd.2 m1 m2

/-! ## Lemmas on the USI codec -/

/-- `usi_split` has a single failure mode: the `AttributeError` that a failed
`re.search` produces. -/
theorem usi_split_error {s : List Char} {e : PyErr}
    (h : usi_split s = .error e) : e = .attributeError := by
  unfold usi_split at h
  cases hm : mzSearch s with
  | none => rw [hm] at h; cases h; rfl
  | some pr =>
    obtain ⟨i, coll⟩ := pr
    rw [hm] at h
    cases hk : kwSearch s with
    | none => rw [hk] at h; cases h; rfl
    | some pr2 => obtain ⟨a, b⟩ := pr2; rw [hk] at h; cases h

/-! ## Lemmas on PRIDE filtering -/

theorem eraseKey_eq_filter {base : List (String × PrideProject)} {a : String}
    (hnd : (base.map Prod.fst).Nodup) :
    eraseKey base a = base.filter (fun kv => !(kv.1 == a)) := by
  induction base with
  | nil => rfl
  | cons kv rest ih =>
    rw [List.map_cons, List.nodup_cons] at hnd
    by_cases hk : kv.1 = a
    · have hb : (kv.1 == a) = true := beq_iff_eq.mpr hk
      simp only [eraseKey, List.eraseP_cons, hb, cond_true]
      rw [List.filter_cons_of_neg (by simp [hb])]
      rw [List.filter_eq_self.mpr]
      intro x hx
      have hxa : x.1 ≠ a := by
        intro hxa
        exact hnd.1 (by rw [hk]; rw [← hxa]; exact List.mem_map.mpr ⟨x, hx, rfl⟩)
      simp [hxa]
    · have hb : (kv.1 == a) = false := beq_eq_false_iff_ne.mpr hk
      simp only [eraseKey, List.eraseP_cons, hb, cond_false]
      rw [List.filter_cons_of_pos (by simp [hb])]
      exact congrArg (kv :: ·) (ih hnd.2)

theorem nodup_keys_filter {base : List (String × PrideProject)}
    {p : String × PrideProject → Bool}
    (hnd : (base.map Prod.fst).Nodup) :
    ((base.filter p).map Prod.fst).Nodup :=
  List.Nodup.sublist (List.Sublist.map Prod.fst (List.filter_sublist base)) hnd

theorem foldl_eraseKey_eq_filter {del : List String} {base : List (String × PrideProject)}
    (hnd : (base.map Prod.fst).Nodup) :
    del.foldl eraseKey base = base.filter (fun kv => !del.contains kv.1) := by
  induction del generalizing base with
  | nil =>
    rw [List.foldl_nil, List.filter_eq_self.mpr]
    intro x hx; rfl
  | cons a del2 ih =>
    rw [List.foldl_cons, eraseKey_eq_filter hnd, ih (nodup_keys_filter hnd),
      List.filter_filter]
    apply List.filter_congr
    intro kv hkv
    rw [List.contains_cons]
    cases h1 : kv.1 == a <;> cases h2 : del2.contains kv.1 <;> simp [h1, h2]

theorem pride_del_mem {orgAcc : String} {base : List (String × PrideProject)}
    {kv : String × PrideProject}
    (hkey : ∀ e ∈ base, e.1 = e.2.accession) (hnd : (base.map Prod.fst).Nodup)
    (hmem : kv ∈ base) :
    kv.1 ∈ pride_del_list orgAcc base ↔ orgAcc ∉ kv.2.organisms := by
  constructor
  · intro h
    obtain ⟨p, hp, hif⟩ := List.mem_filterMap.mp h
    by_cases horg : orgAcc ∈ p.organisms
    · rw [if_pos horg] at hif; cases hif
    · rw [if_neg horg] at hif
      obtain ⟨e, he, hsnd⟩ := List.mem_map.mp hp
      have hacc : e.1 = kv.1 := by
        rw [hkey e he, hsnd]; exact Option.some.inj hif
      have h2 : e.2 = kv.2 := nodup_key_unique hnd he hmem hacc
      rw [← h2, hsnd]
      exact horg
  · intro h
    apply List.mem_filterMap.mpr
    refine ⟨kv.2, List.mem_map.mpr ⟨kv, hmem, rfl⟩, ?_⟩
    rw [if_neg h, (hkey kv hmem).symm]

theorem pride_filtering_eq_filter {orgAcc : String} {base : List (String × PrideProject)}
    (hkey : ∀ e ∈ base, e.1 = e.2.accession) (hnd : (base.map Prod.fst).Nodup) :
    pride_filtering orgAcc base =
      base.filter (fun kv => kv.2.organisms.contains orgAcc) := by
  unfold pride_filtering
  rw [foldl_eraseKey_eq_filter hnd]
  apply List.filter_congr
  intro kv hkv
  have hiff := @pride_del_mem orgAcc base kv hkey hnd hkv
  cases hdel : (pride_del_list orgAcc base).contains kv.1 with
  | true =>
    have hno : orgAcc ∉ kv.2.organisms := hiff.mp (contains_iff_mem.mp hdel)
    rw [contains_eq_false_iff.mpr hno]
    rfl
  | false =>
    have hnm : kv.1 ∉ pride_del_list orgAcc base := contains_eq_false_iff.mp hdel
    have hyes : orgAcc ∈ kv.2.organisms := by
      by_contra hc
      exact hnm (hiff.mpr hc)
    rw [contains_iff_mem.mpr hyes]
    rfl

/-! ## Lemmas on iProX filtering -/

theorem find?_key {base : List (String × IProXProject)} {e : String × IProXProject}
    (hnd : (base.map Prod.fst).Nodup) (hmem : e ∈ base) :
    base.find? (fun kv => kv.1 == e.1) = some e := by
  induction base with
  | nil => cases hmem
  | cons kv rest ih =>
    rw [List.map_cons, List.nodup_cons] at hnd
    rcases List.mem_cons.mp hmem with r | m
    · rw [List.find?_cons_of_pos _ (by rw [r]; exact beq_self_eq_true _), r]
    · rw [List.find?_cons_of_neg, ih hnd.2 m]
      intro hb
      exact hnd.1 (by rw [beq_iff_eq.mp hb]; exact List.mem_map.mpr ⟨e, m, rfl⟩)

theorem lookupAll_of_sub {base sub : List (String × IProXProject)}
    (hnd : (base.map Prod.fst).Nodup) (hsub : ∀ kv ∈ sub, kv ∈ base) :
    lookupAll base (sub.map Prod.fst) = some sub := by
  induction sub with
  | nil => rfl
  | cons kv rest ih =>
    rw [List.map_cons]
    show lookupAll base (kv.1 :: rest.map Prod.fst) = some (kv :: rest)
    have hk : lookupKey base kv.1 = some kv.2 := by
      unfold lookupKey
      rw [find?_key hnd (hsub kv (List.mem_cons_self kv rest))]
      rfl
    simp only [lookupAll, hk]
    rw [ih (fun e he => hsub e (List.mem_cons_of_mem kv he))]
    simp [Option.map, Prod.mk.eta]

theorem iprox_projects_eq {orgAcc : String} {base : List (String × IProXProject)}
    (hkey : ∀ e ∈ base, e.1 = e.2.accessionValue) :
    iprox_projects_list orgAcc base =
      (base.filter (fun kv => iprox_keep orgAcc kv.2)).map Prod.fst := by
  induction base with
  | nil => rfl
  | cons kv rest ih =>
    have hkv := hkey kv (List.mem_cons_self kv rest)
    have ihr := ih (fun e he => hkey e (List.mem_cons_of_mem kv he))
    unfold iprox_projects_list at ihr ⊢
    rw [List.map_cons, List.filterMap_cons]
    cases hkeep : iprox_keep orgAcc kv.2 with
    | true =>
      simp only [if_pos rfl, List.filter_cons, hkeep, ite_true, List.map_cons]
      rw [← hkv, ihr]
    | false =>
      simp only [if_neg Bool.false_ne_true, List.filter_cons, hkeep]
      exact ihr

theorem iprox_filtering_eq {orgAcc : String} {base : List (String × IProXProject)}
    (hkey : ∀ e ∈ base, e.1 = e.2.accessionValue)
    (hnd : (base.map Prod.fst).Nodup) :
    iprox_filtering orgAcc base =
      some (base.filter (fun kv => iprox_keep orgAcc kv.2)) := by
  unfold iprox_filtering
  rw [iprox_projects_eq hkey]
  exact lookupAll_of_sub hnd (fun kv hkv => (List.mem_filter.mp hkv).1)

/-! ## Claim theorems -/

/-- C1: `usi_detect` returns true exactly when parsing succeeds, the parsed
collection contains `pxd` case-insensitively and both the msRun+index and
interpretation components are non-empty; it returns false for the empty
string, for `mzspec:PXD1:run1:PEP` (no run/index token) and for
`mzspec:ABC:index:5:PEP` (collection without a ProteomeXchange token). -/
theorem usi_detect_characterization :
    (∀ s : List Char, usi_detect s = true ↔
      ∃ c, usi_split s = .ok c ∧ containsPXD c.collection = true ∧
        c.msRunIndex ≠ [] ∧ c.interp ≠ []) ∧
    usi_detect [] = false ∧
    usi_detect ['m', 'z', 's', 'p', 'e', 'c', ':', 'P', 'X', 'D', '1', ':',
      'r', 'u', 'n', '1', ':', 'P', 'E', 'P'] = false ∧
    usi_detect ['m', 'z', 's', 'p', 'e', 'c', ':', 'A', 'B', 'C', ':',
      'i', 'n', 'd', 'e', 'x', ':', '5', ':', 'P', 'E', 'P'] = false := by
  refine ⟨?_, by decide, by decide, by decide⟩
  intro s
  unfold usi_detect
  cases h : usi_split s with
  | error e => simp
  | ok c => simp [Bool.and_eq_true, List.isEmpty_iff, and_assoc]

/-- C2: with the bound set to 3, `Mapper.retriever_running` invokes the
always-failing fetch closure 4 (= 3 + 1) times, not 3, before returning with
the exhausted flag set and without raising; with the default bound 5 it makes
6 invocations, contradicting its own docstring ("skip ... after five
errors"). -/
theorem retriever_running_attempt_count :
    retriever_running (fun _ => false) 3 = (4, true) ∧
    retriever_running (fun _ => false) 5 = (6, true) ∧
    retriever_running (fun _ => true) 3 = (1, false) := by
  exact ⟨rfl, rfl, rfl⟩

/-- C3: against a stub source yielding 3 non-empty pages and then a page
lacking the results container (PRIDE pages start at 0, iProX pages start
at 1), both paginated peptide retrieve loops issue exactly 4 page requests,
terminate, and record rows only from the first 3 pages. -/
theorem pagination_termination :
    ∀ (rows : Nat → Nat) (fuel : Nat),
      pride_retrieve_loop (stub_pages rows 0 3) (fuel + 4) 0 =
        some (4, [(0, rows 0), (1, rows 1), (2, rows 2)]) ∧
      iprox_retrieve_loop (stub_pagesE rows 1 3) (fuel + 4) 1 =
        some (.ok (4, [(1, rows 1), (2, rows 2), (3, rows 3)])) := by
  intro rows fuel
  exact ⟨rfl, rfl⟩

/-- C4: for every well-keyed project-record map (entry key = record
accession, no duplicate keys) and configured organism accession, both
`PrideMapper.filtering` and `IProXMapper.filtering` retain exactly the
records whose recorded organism set contains that accession. -/
theorem filtering_organism :
    ∀ (orgAcc : String) (pbase : List (String × PrideProject))
      (ibase : List (String × IProXProject)),
      ((∀ e ∈ pbase, e.1 = e.2.accession) → (pbase.map Prod.fst).Nodup →
        pride_filtering orgAcc pbase =
          pbase.filter (fun kv => kv.2.organisms.contains orgAcc)) ∧
      ((∀ e ∈ ibase, e.1 = e.2.accessionValue) → (ibase.map Prod.fst).Nodup →
        iprox_filtering orgAcc ibase =
          some (ibase.filter (fun kv => iprox_keep orgAcc kv.2))) :=
  fun _ _ _ =>
    ⟨fun hkey hnd => pride_filtering_eq_filter hkey hnd,
     fun hkey hnd => iprox_filtering_eq hkey hnd⟩

/-- Witness for C4: of two records, the one carrying taxonomy accession 9606
is kept and the one carrying 10090 is dropped, for both mappers. -/
theorem filtering_organism_witness :
    pride_filtering "9606" pbaseW = [("PXD000001", ⟨"PXD000001", ["9606"]⟩)] ∧
    iprox_filtering "9606" ibaseW =
      some [("PXD900001", ⟨"PXD900001", [⟨"MS:1001467", "9606"⟩]⟩)] := by
  constructor
  · exact ((filtering_organism "9606" pbaseW ibaseW).1
      (by decide) (by decide)).trans (by decide)
  · exact ((filtering_organism "9606" pbaseW ibaseW).2
      (by decide) (by decide)).trans (by decide)

/-- C5 counterexample: a project-kind fetch with a non-success HTTP status
completes normally (returning an empty response), it does not raise. -/
theorem project_retrieve_nonsuccess_no_raise :
    pride_project_retrieve false (42 : Nat) = .ok none ∧
    iprox_project_retrieve false (42 : Nat) = .ok none := ⟨rfl, rfl⟩

/-- C5 (amended): project-kind fetches treat a non-success status as a
normal completion with an empty response; the `RequestException`-style raise
on a non-success status happens in the iProX paginated (peptide/protein)
retrieve loops; a page lacking the results container is normal
termination, not an error. -/
theorem upstream_error_handling :
    (∀ body : Nat, pride_project_retrieve false body = .ok none ∧
        iprox_project_retrieve false body = .ok none) ∧
    (∀ fuel page, iprox_retrieve_loop (fun _ => (.error () : Except Unit (Option Nat)))
        (fuel + 1) page = some (.error .requestException)) ∧
    (∀ fuel page, pride_retrieve_loop (fun _ => (none : Option Nat)) (fuel + 1) page =
        some (1, [])) :=
  ⟨fun _ => ⟨rfl, rfl⟩, fun _ _ => rfl, fun _ _ => rfl⟩

/-- C6: every recorded resume entry (USI or `None` sentinel) is subtracted
from the outstanding peptide list, so its peptide is never queried again;
every row surviving the merge passes `usi_detect` (so sentinel entries
contribute nothing, `usi_detect "None" = false`); and every recorded entry
that passes the re-validation is merged into the peptide-level rows. -/
theorem resume_log_semantics :
    ∀ (fetch : List Char → List (List Char × List Char))
      (peptides : List (List Char)) (tmp : List (List Char × List Char)),
      (∀ e ∈ tmp, e.1 ∉ (mapping_with_resume fetch peptides tmp).1) ∧
      (∀ r ∈ (mapping_with_resume fetch peptides tmp).2, usi_detect r.2 = true) ∧
      (∀ e ∈ tmp, usi_detect e.2 = true →
        e ∈ (mapping_with_resume fetch peptides tmp).2) ∧
      usi_detect noneStr = false := by
  intro fetch peptides tmp
  refine ⟨?_, ?_, ?_, by decide⟩
  · intro e he hmem
    simp only [mapping_with_resume] at hmem
    have h2 := (List.mem_filter.mp hmem).2
    have hc : (tmp.map Prod.fst).contains e.1 = true :=
      contains_iff_mem.mpr (List.mem_map.mpr ⟨e, he, rfl⟩)
    rw [hc] at h2
    cases h2
  · intro r hr
    simp only [mapping_with_resume] at hr
    rcases List.mem_append.mp hr with h | h
    · exact (List.mem_filter.mp h).2
    · exact (List.mem_filter.mp h).2
  · intro e he hdet
    simp only [mapping_with_resume]
    exact List.mem_append.mpr (Or.inr (List.mem_filter.mpr ⟨he, hdet⟩))

/-- Witness for C6: with outstanding peptides AA and BB, a resume log that
already records AA (with a valid USI) and BB (with the `None` sentinel)
leaves AA unqueried and merges its recorded row. -/
theorem resume_log_semantics_witness :
    (['A', 'A'] ∉ (mapping_with_resume (fun _ => []) [['A', 'A'], ['B', 'B']]
      [(['A', 'A'], exUSI), (['B', 'B'], noneStr)]).1) ∧
    ((['A', 'A'], exUSI) ∈ (mapping_with_resume (fun _ => []) [['A', 'A'], ['B', 'B']]
      [(['A', 'A'], exUSI), (['B', 'B'], noneStr)]).2) := by
  constructor
  · exact (resume_log_semantics (fun _ => []) [['A', 'A'], ['B', 'B']]
      [(['A', 'A'], exUSI), (['B', 'B'], noneStr)]).1
      (⟨['A', 'A'], exUSI⟩) (by simp)
  · exact (resume_log_semantics (fun _ => []) [['A', 'A'], ['B', 'B']]
      [(['A', 'A'], exUSI), (['B', 'B'], noneStr)]).2.2.1
      (⟨['A', 'A'], exUSI⟩) (by simp) (by decide)

/-- C7: a failing mapper run drives the recorded task state through
Preparation, Running, Error and hands a `BufferError` to the caller, the
Error state being recorded before the raise; a successful run records
Preparation, Running, Success and raises nothing; recorded states never move
backwards. -/
theorem hub_state_transitions :
    (∀ e, hub_run (.error e) =
        (⟨.Error, [.Preparation, .Running, .Error]⟩, some .bufferError)) ∧
    hub_run (.ok ()) = (⟨.Success, [.Preparation, .Running, .Success]⟩, none) ∧
    (∀ outcome, List.Chain' (fun a b => stateRank a ≤ stateRank b)
        (hub_run outcome).1.recorded) := by
  refine ⟨fun e => rfl, rfl, ?_⟩
  intro outcome
  cases outcome with
  | ok u =>
    cases u
    show List.Chain' _ [TaskState.Preparation, .Running, .Success]
    simp [List.chain'_cons, stateRank]
  | error e =>
    show List.Chain' _ [TaskState.Preparation, .Running, .Error]
    simp [List.chain'_cons, stateRank]

/-- C9: `usi_detect` is total — for every string its behavioural model
returns a boolean rather than propagating an exception, since the only parse
failure mode (`AttributeError`) is caught; in particular it returns false
without raising on a string with no colon, on one with a trailing run/index
token and on the empty string. -/
theorem usi_detect_total :
    (∀ s : List Char, usi_detectE s = .ok (usi_detect s)) ∧
    usi_detectE ['a', 'b', 'c'] = .ok false ∧
    usi_detectE ['m', 'z', 's', 'p', 'e', 'c', ':', 'P', 'X', 'D', '1', ':',
      'i', 'n', 'd', 'e', 'x', ':', '5'] = .ok false ∧
    usi_detectE [] = .ok false := by
  refine ⟨?_, by decide, by decide, by decide⟩
  intro s
  unfold usi_detectE usi_detect
  cases h : usi_split s with
  | error e => have he := usi_split_error h; subst he; simp
  | ok c => simp

/-- C10: the iProX peptide request-word setter rejects exactly the words
shorter than 7 characters with a `TypeError`; consequently the iProX
peptide-mapping loop fails with that `TypeError` whenever the peptide list
contains a shorter peptide (never querying it), and completes the queries
otherwise. -/
theorem iprox_request_word_length :
    (∀ w : List Char, (w.length < 7 → iprox_request_word w = .error .typeError) ∧
      (7 ≤ w.length → iprox_request_word w = .ok w)) ∧
    (∀ (fetch : List Char → List (List Char × List Char)) peptides,
      (∃ p ∈ peptides, p.length < 7) →
      iprox_mapping2peptides fetch peptides = .error .typeError) ∧
    (∀ (fetch : List Char → List (List Char × List Char)) peptides,
      (∀ p ∈ peptides, 7 ≤ p.length) →
      iprox_mapping2peptides fetch peptides = .ok (peptides.flatMap fetch)) := by
  refine ⟨?_, ?_, ?_⟩
  · intro w
    constructor
    · intro h; simp [iprox_request_word, h]
    · intro h; simp [iprox_request_word, Nat.not_lt.mpr h]
  · intro fetch peptides h
    induction peptides with
    | nil => obtain ⟨p, hp, _⟩ := h; cases hp
    | cons q rest ih =>
      obtain ⟨p, hp, hlen⟩ := h
      rcases List.mem_cons.mp hp with rfl | hmem
      · simp [iprox_mapping2peptides, iprox_request_word, hlen]
      · by_cases hq : q.length < 7
        · simp [iprox_mapping2peptides, iprox_request_word, hq]
        · simp only [iprox_mapping2peptides, iprox_request_word, if_neg hq]
          rw [ih ⟨p, hmem, hlen⟩]
          rfl
  · intro fetch peptides h
    induction peptides with
    | nil => rfl
    | cons q rest ih =>
      have hq : ¬ q.length < 7 := Nat.not_lt.mpr (h q (List.mem_cons_self q rest))
      simp only [iprox_mapping2peptides, iprox_request_word, if_neg hq]
      rw [ih (fun p hp => h p (List.mem_cons_of_mem q hp))]
      rfl

/-- Witness for C10: a 3-character peptide is rejected, a 7-character one is
accepted, and a peptide list containing the short one makes the mapping loop
fail with `TypeError`. -/
theorem iprox_request_word_length_witness :
    iprox_request_word ['A', 'A', 'A'] = .error .typeError ∧
    iprox_request_word ['A', 'A', 'A', 'A', 'A', 'A', 'A'] =
      .ok ['A', 'A', 'A', 'A', 'A', 'A', 'A'] ∧
    iprox_mapping2peptides (fun _ => []) [['A', 'A', 'A']] = .error .typeError :=
  ⟨(iprox_request_word_length.1 ['A', 'A', 'A']).1 (by decide),
   (iprox_request_word_length.1 ['A', 'A', 'A', 'A', 'A', 'A', 'A']).2 (by decide),
   iprox_request_word_length.2.1 (fun _ => []) [['A', 'A', 'A']]
     ⟨['A', 'A', 'A'], by simp, by decide⟩⟩

end Patpat

namespace Patpat

/-! ## C8 lemmas: scanToColon / digitsCount / mzSearch -/

theorem scanToColon_sound {u xs : List Char} (h : scanToColon u = some xs) :
    ∃ v, u = xs ++ ':' :: v ∧ ∀ x ∈ xs, ¬x = ':' ∧ pySpace x = false := by
  induction u generalizing xs with
  | nil => cases h
  | cons c rest ih =>
    by_cases hc : c = ':'
    · rw [scanToColon, if_pos hc] at h
      cases h
      exact ⟨rest, by simp [hc], by intro x hx; cases hx⟩
    · rw [scanToColon, if_neg hc] at h
      by_cases hsp : pySpace c
      · rw [hsp] at h; cases h
      · rw [Bool.not_eq_true] at hsp
        rw [hsp] at h
        simp only [Bool.false_eq_true, if_neg] at h
        obtain ⟨xs2, hxs2, hmap⟩ := Option.map_eq_some'.mp h
        obtain ⟨v, hv, hall⟩ := ih hxs2
        refine ⟨v, ?_, ?_⟩
        · rw [← hmap, hv]; rfl
        · intro x hx
          rw [← hmap] at hx
          rcases List.mem_cons.mp hx with r | m
          · exact r ▸ ⟨hc, hsp⟩
          · exact hall x m

theorem scanToColon_complete {xs v : List Char}
    (h : ∀ x ∈ xs, ¬x = ':' ∧ pySpace x = false) :
    scanToColon (xs ++ ':' :: v) = some xs := by
  induction xs with
  | nil => rfl
  | cons x xs2 ih =>
    have hx := h x (List.mem_cons_self x xs2)
    rw [List.cons_append, scanToColon, if_neg hx.1, hx.2]
    simp only [Bool.false_eq_true, if_neg]
    rw [ih (fun y hy => h y (List.mem_cons_of_mem x hy))]
    rfl

theorem mzSearch_sound {s : List Char} {i : Nat} {coll : List Char}
    (h : mzSearch s = some (i, coll)) :
    ∃ pre rest, s = pre ++ mzspecStr ++ rest ∧ i = pre.length + 7 ∧
      scanToColon rest = some coll := by
  induction s generalizing i with
  | nil => cases h
  | cons c srest ih =>
    by_cases hif : mzspecStr.isPrefixOf (c :: srest)
    · rw [mzSearch, if_pos hif] at h
      cases hscan : scanToColon (List.drop 7 (c :: srest)) with
      | some coll2 =>
        rw [hscan] at h
        cases h
        obtain ⟨u, hu⟩ := List.isPrefixOf_iff_prefix.mp hif
        refine ⟨[], u, by rw [← hu]; rfl, rfl, ?_⟩
        rw [← hscan]
        congr 1
        rw [← hu]
        exact (List.drop_left mzspecStr u).symm
      | none =>
        rw [hscan] at h
        obtain ⟨⟨i2, coll2⟩, hrec, hmap⟩ := Option.map_eq_some'.mp h
        cases hmap
        obtain ⟨pre, rest, hs, hi, hscan2⟩ := ih hrec
        exact ⟨c :: pre, rest, by rw [hs]; simp,
          by rw [hi, List.length_cons], hscan2⟩
    · rw [mzSearch, if_neg hif] at h
      obtain ⟨⟨i2, coll2⟩, hrec, hmap⟩ := Option.map_eq_some'.mp h
      cases hmap
      obtain ⟨pre, rest, hs, hi, hscan2⟩ := ih hrec
      exact ⟨c :: pre, rest, by rw [hs]; simp,
        by rw [hi, List.length_cons], hscan2⟩

theorem digitsCount_le_length (u : List Char) : digitsCount u ≤ u.length := by
  induction u with
  | nil => exact Nat.le_refl 0
  | cons c rest ih =>
    rw [digitsCount]
    by_cases hd : pyDigit c
    · rw [hd]; simpa using ih
    · rw [Bool.not_eq_true] at hd; rw [hd]; simp

theorem digitsCount_take_digits {u : List Char} :
    ∀ x ∈ u.take (digitsCount u), pyDigit x = true := by
  induction u with
  | nil => intro x hx; cases hx
  | cons c rest ih =>
    intro x hx
    rw [digitsCount] at hx
    by_cases hd : pyDigit c
    · rw [hd] at hx
      simp only [if_pos rfl, List.take_succ_cons] at hx
      rcases List.mem_cons.mp hx with r | m
      · exact r ▸ hd
      · exact ih x m
    · rw [Bool.not_eq_true] at hd
      rw [hd] at hx
      simp only [Bool.false_eq_true, if_neg, List.take_zero] at hx
      cases hx

theorem digitsCount_stop {u : List Char} {c : Char}
    (h : (u.drop (digitsCount u)).head? = some c) : pyDigit c = false := by
  induction u with
  | nil => cases h
  | cons c0 rest ih =>
    rw [digitsCount] at h
    by_cases hd : pyDigit c0
    · rw [hd] at h
      simp only [if_pos rfl, List.drop_succ_cons] at h
      exact ih h
    · rw [Bool.not_eq_true] at hd
      rw [hd] at h
      simp only [Bool.false_eq_true, if_neg, List.drop_zero, List.head?_cons] at h
      cases h
      exact hd

theorem digitsCount_append_digits {ds w : List Char}
    (h : ∀ x ∈ ds, pyDigit x = true) :
    digitsCount (ds ++ w) = ds.length + digitsCount w := by
  induction ds with
  | nil => simp
  | cons d ds2 ih =>
    rw [List.cons_append, digitsCount, h d (List.mem_cons_self d ds2),
      ih (fun y hy => h y (List.mem_cons_of_mem d hy))]
    simp
    omega

theorem digitsCount_colon_cons (w : List Char) : digitsCount (':' :: w) = 0 := by
  rw [digitsCount]
  rfl

end Patpat

namespace Patpat

/-! ## C8 lemmas: the keyword regex -/

/-- A character on which the matched text of a keyword match can end: a
digit (non-empty greedy run) or the colon (empty one). -/
def stopChar (c : Char) : Bool := pyDigit c || c = ':'

theorem prefixOf_head {a : Char} {p u : List Char}
    (h : (a :: p).isPrefixOf u = true) : u.head? = some a := by
  obtain ⟨v, hv⟩ := List.isPrefixOf_iff_prefix.mp h
  rw [← hv]
  rfl

theorem kw_facts :
    ∀ kw ∈ kwStrs, kw ≠ [] ∧ (∀ x ∈ kw, ¬x = ':') ∧
      (∀ c, kw.getLast? = some c → stopChar c = false) := by
  decide

theorem kwMatchLen_nil : kwMatchLen [] = none := by decide

theorem kwMatchLen_sound {u : List Char} {len : Nat}
    (h : kwMatchLen u = some len) :
    ∃ kw, kw ∈ kwStrs ∧ (kw ++ [':']).isPrefixOf u = true ∧
      len = kw.length + 1 + digitsCount (u.drop (kw.length + 1)) := by
  unfold kwMatchLen at h
  split at h
  · cases h; exact ⟨indexStr, by decide, by assumption, by rfl⟩
  · split at h
    · cases h; exact ⟨scanStr, by decide, by assumption, by rfl⟩
    · split at h
      · cases h; exact ⟨traceStr, by decide, by assumption, by rfl⟩
      · split at h
        · cases h; exact ⟨nativeIdStr, by decide, by assumption, by rfl⟩
        · cases h

theorem kwMatchLen_none_iff {u : List Char} :
    kwMatchLen u = none ↔ ∀ kw ∈ kwStrs, (kw ++ [':']).isPrefixOf u = false := by
  constructor
  · intro h kw hkw
    have h1 : (indexStr ++ [':']).isPrefixOf u = false := by
      cases hc : (indexStr ++ [':']).isPrefixOf u
      · rfl
      · rw [kwMatchLen, if_pos hc] at h; cases h
    have h2 : (scanStr ++ [':']).isPrefixOf u = false := by
      cases hc : (scanStr ++ [':']).isPrefixOf u
      · rfl
      · rw [kwMatchLen, if_neg (by simp [h1]), if_pos hc] at h; cases h
    have h3 : (traceStr ++ [':']).isPrefixOf u = false := by
      cases hc : (traceStr ++ [':']).isPrefixOf u
      · rfl
      · rw [kwMatchLen, if_neg (by simp [h1]), if_neg (by simp [h2]),
          if_pos hc] at h
        cases h
    have h4 : (nativeIdStr ++ [':']).isPrefixOf u = false := by
      cases hc : (nativeIdStr ++ [':']).isPrefixOf u
      · rfl
      · rw [kwMatchLen, if_neg (by simp [h1]), if_neg (by simp [h2]),
          if_neg (by simp [h3]), if_pos hc] at h
        cases h
    simp only [kwStrs, List.mem_cons, List.not_mem_nil, or_false] at hkw
    rcases hkw with rfl | rfl | rfl | rfl
    · exact h1
    · exact h2
    · exact h3
    · exact h4
  · intro h
    rw [kwMatchLen, if_neg (by simp [h indexStr (by decide)]),
      if_neg (by simp [h scanStr (by decide)]),
      if_neg (by simp [h traceStr (by decide)]),
      if_neg (by simp [h nativeIdStr (by decide)])]

/-- The four keywords have pairwise distinct first letters, so whichever of
them matches at the front of `u`, `kwMatchLen` returns that keyword's match
length. -/
theorem kwMatchLen_intro {u kw : List Char} (hkw : kw ∈ kwStrs)
    (h : (kw ++ [':']).isPrefixOf u = true) :
    kwMatchLen u = some (kw.length + 1 + digitsCount (u.drop (kw.length + 1))) := by
  simp only [kwStrs, List.mem_cons, List.not_mem_nil, or_false] at hkw
  rcases hkw with rfl | rfl | rfl | rfl
  · rw [kwMatchLen, if_pos h]; rfl
  · have hh : u.head? = some 's' := prefixOf_head (p := ['c', 'a', 'n', ':']) h
    have h1 : (indexStr ++ [':']).isPrefixOf u = false := by
      cases hc : (indexStr ++ [':']).isPrefixOf u
      · rfl
      · rw [prefixOf_head (p := ['n', 'd', 'e', 'x', ':']) hc] at hh; cases hh
    rw [kwMatchLen, if_neg (by simp [h1]), if_pos h]; rfl
  · have hh : u.head? = some 't' := prefixOf_head (p := ['r', 'a', 'c', 'e', ':']) h
    have h1 : (indexStr ++ [':']).isPrefixOf u = false := by
      cases hc : (indexStr ++ [':']).isPrefixOf u
      · rfl
      · rw [prefixOf_head (p := ['n', 'd', 'e', 'x', ':']) hc] at hh; cases hh
    have h2 : (scanStr ++ [':']).isPrefixOf u = false := by
      cases hc : (scanStr ++ [':']).isPrefixOf u
      · rfl
      · rw [prefixOf_head (p := ['c', 'a', 'n', ':']) hc] at hh; cases hh
    rw [kwMatchLen, if_neg (by simp [h1]), if_neg (by simp [h2]), if_pos h]; rfl
  · have hh : u.head? = some 'n' :=
      prefixOf_head (p := ['a', 't', 'i', 'v', 'e', 'I', 'd', ':']) h
    have h1 : (indexStr ++ [':']).isPrefixOf u = false := by
      cases hc : (indexStr ++ [':']).isPrefixOf u
      · rfl
      · rw [prefixOf_head (p := ['n', 'd', 'e', 'x', ':']) hc] at hh; cases hh
    have h2 : (scanStr ++ [':']).isPrefixOf u = false := by
      cases hc : (scanStr ++ [':']).isPrefixOf u
      · rfl
      · rw [prefixOf_head (p := ['c', 'a', 'n', ':']) hc] at hh; cases hh
    have h3 : (traceStr ++ [':']).isPrefixOf u = false := by
      cases hc : (traceStr ++ [':']).isPrefixOf u
      · rfl
      · rw [prefixOf_head (p := ['r', 'a', 'c', 'e', ':']) hc] at hh; cases hh
    rw [kwMatchLen, if_neg (by simp [h1]), if_neg (by simp [h2]),
      if_neg (by simp [h3]), if_pos h]
    rfl

end Patpat

namespace Patpat

theorem kwSearch_sound {u : List Char} {p e : Nat}
    (h : kwSearch u = some (p, e)) :
    ∃ len, kwMatchLen (u.drop p) = some len ∧ e = p + len ∧
      ∀ q, q < p → kwMatchLen (u.drop q) = none := by
  induction u generalizing p e with
  | nil => cases h
  | cons c rest ih =>
    cases hm : kwMatchLen (c :: rest) with
    | some len =>
      rw [kwSearch, hm] at h
      have hpe : (0, len) = ((p, e) : Nat × Nat) := Option.some.inj h
      obtain ⟨rfl, rfl⟩ : 0 = p ∧ len = e := Prod.mk.inj hpe
      exact ⟨len, hm, (Nat.zero_add len).symm, fun q hq => absurd hq (Nat.not_lt_zero q)⟩
    | none =>
      rw [kwSearch, hm] at h
      have h2 : Option.map (fun pr => (pr.1 + 1, pr.2 + 1)) (kwSearch rest) =
          some (p, e) := h
      obtain ⟨⟨p2, e2⟩, hrec, hmap⟩ := Option.map_eq_some'.mp h2
      have hpe : (p2 + 1, e2 + 1) = ((p, e) : Nat × Nat) := hmap
      obtain ⟨rfl, rfl⟩ : p2 + 1 = p ∧ e2 + 1 = e := Prod.mk.inj hpe
      obtain ⟨len, hlen, he, hleft⟩ := ih hrec
      refine ⟨len, by simpa using hlen, by omega, ?_⟩
      intro q hq
      cases q with
      | zero => exact hm
      | succ q2 =>
        rw [List.drop_succ_cons]
        exact hleft q2 (by omega)

theorem kwSearch_intro {u : List Char} {p len : Nat}
    (h1 : kwMatchLen (u.drop p) = some len)
    (h2 : ∀ q, q < p → kwMatchLen (u.drop q) = none) :
    kwSearch u = some (p, p + len) := by
  induction u generalizing p with
  | nil =>
    rw [List.drop_nil, kwMatchLen_nil] at h1
    cases h1
  | cons c rest ih =>
    cases p with
    | zero =>
      rw [List.drop_zero] at h1
      rw [kwSearch, h1]
      show some (0, len) = some (0, 0 + len)
      rw [Nat.zero_add]
    | succ p2 =>
      have h0 : kwMatchLen (c :: rest) = none := by
        have h3 := h2 0 (Nat.succ_pos p2)
        rwa [List.drop_zero] at h3
      rw [kwSearch, h0]
      rw [List.drop_succ_cons] at h1
      have hrec := ih h1 (fun q hq => by
        have h4 := h2 (q + 1) (by omega)
        rwa [List.drop_succ_cons] at h4)
      rw [hrec]
      show some (p2 + 1, p2 + len + 1) = some (p2 + 1, p2 + 1 + len)
      rw [Nat.add_right_comm]

end Patpat

namespace Patpat

theorem getLast?_drop_of_lt {u : List Char} {q : Nat} (h : q < u.length) :
    (u.drop q).getLast? = u.getLast? := by
  conv_rhs => rw [← List.take_append_drop q u]
  rw [List.getLast?_append_of_ne_nil]
  intro hnil
  rw [List.drop_eq_nil_iff] at hnil
  omega

/-- Replacing the first character after `w` by a colon cannot create a new
keyword match at the front when `w` ends in a digit or colon: a match there
would need `w` itself to end with the keyword (whose last letter is neither)
or the keyword to contain a colon. -/
theorem kw_prefix_transfer {kw w t t' : List Char} {X : Char}
    (hcol : ∀ x ∈ kw, ¬x = ':')
    (hlast : ∀ c, kw.getLast? = some c → stopChar c = false)
    (hwlast : ∃ c, w.getLast? = some c ∧ stopChar c = true)
    (hpre : (kw ++ [':']).isPrefixOf (w ++ ':' :: t') = true) :
    (kw ++ [':']).isPrefixOf (w ++ X :: t) = true := by
  rw [List.isPrefixOf_iff_prefix] at hpre ⊢
  obtain ⟨r, hr⟩ := hpre
  rcases Nat.lt_trichotomy kw.length w.length with hlt | heq | hgt
  · have htake := congrArg (List.take (kw.length + 1)) hr
    rw [List.take_left' (by simp),
      List.take_append_of_le_length (by omega)] at htake
    have hpw : kw ++ [':'] <+: w := by
      rw [List.prefix_iff_eq_take, htake]
      congr 1
      simp
      omega
    exact hpw.trans (List.prefix_append w (X :: t))
  · have hr2 : (kw ++ [':']) ++ r = (w ++ [':']) ++ t' := by
      rw [hr]
      simp
    obtain ⟨h1, _⟩ := List.append_inj hr2 (by simp [heq])
    have hkww : kw = w := (List.append_inj h1 heq).1
    obtain ⟨c, hwc, hstop⟩ := hwlast
    have hbad := hlast c (by rw [hkww]; exact hwc)
    rw [hbad] at hstop
    cases hstop
  · exfalso
    have hget := congrArg (fun l => l[w.length]?) hr
    simp only at hget
    rw [List.getElem?_append_left (by simp; omega),
      List.getElem?_append_left (by omega),
      List.getElem?_append_right (Nat.le_refl w.length),
      Nat.sub_self] at hget
    have hcolon : (':' :: t')[0]? = some ':' := by simp
    rw [hcolon] at hget
    exact hcol ':' (List.getElem?_mem hget) rfl

end Patpat

namespace Patpat

theorem kwMatchLen_none_transfer {w t t' : List Char} {X : Char}
    (hwlast : ∃ c, w.getLast? = some c ∧ stopChar c = true)
    (h : kwMatchLen (w ++ X :: t) = none) :
    kwMatchLen (w ++ ':' :: t') = none := by
  rw [kwMatchLen_none_iff] at h ⊢
  intro kw hkw
  obtain ⟨-, hc, hl⟩ := kw_facts kw hkw
  cases hp : (kw ++ [':']).isPrefixOf (w ++ ':' :: t')
  · rfl
  · have htr := kw_prefix_transfer (t := t) (X := X) hc hl hwlast hp
    rw [h kw hkw] at htr
    cases htr

theorem mzSearch_front {u coll : List Char} (h : scanToColon u = some coll) :
    mzSearch (mzspecStr ++ u) = some (7, coll) := by
  have hpre : mzspecStr.isPrefixOf (mzspecStr ++ u) = true :=
    List.isPrefixOf_iff_prefix.mpr (List.prefix_append _ _)
  have hdrop : List.drop 7 (mzspecStr ++ u) = u := List.drop_left' rfl
  have hpre2 : mzspecStr.isPrefixOf ('m' :: (['z', 's', 'p', 'e', 'c', ':'] ++ u)) = true := hpre
  have hdrop2 : List.drop 7 ('m' :: (['z', 's', 'p', 'e', 'c', ':'] ++ u)) = u := hdrop
  show mzSearch ('m' :: (['z', 's', 'p', 'e', 'c', ':'] ++ u)) = some (7, coll)
  rw [mzSearch, if_pos hpre2, hdrop2, h]

theorem getLast_stop_of_digits {a : Char} {ds : List Char}
    (ha : stopChar a = true) (hds : ∀ x ∈ ds, pyDigit x = true) :
    ∃ c, (a :: ds).getLast? = some c ∧ stopChar c = true := by
  induction ds generalizing a with
  | nil => exact ⟨a, rfl, ha⟩
  | cons d ds2 ih =>
    rw [List.getLast?_cons_cons]
    refine ih ?_ (fun x hx => hds x (List.mem_cons_of_mem d hx))
    rw [stopChar, hds d (List.mem_cons_self d ds2)]
    rfl

theorem pySlice_middle {a b z : List Char} :
    pySlice a.length (a.length + b.length) (a ++ (b ++ z)) = b := by
  unfold pySlice
  rw [List.take_append, List.take_left b z, List.drop_left]

theorem count_colon_digits {ds : List Char} (hds : ∀ x ∈ ds, pyDigit x = true) :
    ds.count ':' = 0 := by
  rw [List.count_eq_zero]
  intro hm
  have := hds ':' hm
  cases this

end Patpat

namespace Patpat

theorem usi_split_ok_inv {s : List Char} {c : USIComponents}
    (h : usi_split s = .ok c) :
    ∃ i coll st e2, mzSearch s = some (i, coll) ∧ kwSearch s = some (st, e2) ∧
      c = ⟨coll, pySlice (i + coll.length + 1) e2 s, s.drop (e2 + 1)⟩ := by
  unfold usi_split at h
  cases hm : mzSearch s with
  | none =>
    rw [hm] at h
    have h2 : (Except.error .attributeError : Except PyErr USIComponents) = .ok c := h
    cases h2
  | some pr =>
    obtain ⟨i, coll⟩ := pr
    rw [hm] at h
    cases hk : kwSearch s with
    | none =>
      rw [hk] at h
      have h2 : (Except.error .attributeError : Except PyErr USIComponents) = .ok c := h
      cases h2
    | some pr2 =>
      obtain ⟨st, e2⟩ := pr2
      rw [hk] at h
      have h2 : Except.ok (⟨coll, pySlice (i + coll.length + 1) e2 s,
          s.drop (e2 + 1)⟩ : USIComponents) = .ok c := h
      exact ⟨i, coll, st, e2, rfl, rfl, (Except.ok.inj h2).symm⟩

theorem usi_detect_ok_conds {s : List Char} {c : USIComponents}
    (hsplit : usi_split s = .ok c) (hdet : usi_detect s = true) :
    containsPXD c.collection = true ∧ c.msRunIndex ≠ [] ∧ c.interp ≠ [] := by
  unfold usi_detect at hdet
  rw [hsplit] at hdet
  simpa [Bool.and_eq_true, List.isEmpty_iff, and_assoc] using hdet

theorem usi_detect_of_ok {s : List Char} {c : USIComponents}
    (hsplit : usi_split s = .ok c)
    (h1 : containsPXD c.collection = true) (h2 : c.msRunIndex ≠ [])
    (h3 : c.interp ≠ []) : usi_detect s = true := by
  unfold usi_detect
  rw [hsplit]
  simp [Bool.and_eq_true, List.isEmpty_iff, h1, h2, h3]

end Patpat

namespace Patpat

theorem usi_split_eval {x : List Char} {i st e2 : Nat} {coll : List Char}
    (hm : mzSearch x = some (i, coll)) (hk : kwSearch x = some (st, e2)) :
    usi_split x = .ok ⟨coll, pySlice (i + coll.length + 1) e2 x, x.drop (e2 + 1)⟩ := by
  unfold usi_split
  rw [hm, hk]

/-- C8: parsing a well-formed (usi_detect-valid) USI and reassembling
`mzspec:collection:msRunIndex:interpretation` from the parsed components
yields a string that parses back to exactly the same three components and is
again accepted by the USI validity predicate. -/
theorem usi_roundtrip :
    ∀ (s : List Char) (c : USIComponents),
      usi_split s = .ok c → usi_detect s = true →
      usi_split (reassemble c) = .ok c ∧ usi_detect (reassemble c) = true := by
  intro s c hsplit hdet
  obtain ⟨hpxd, hrun, hinterp⟩ := usi_detect_ok_conds hsplit hdet
  obtain ⟨i, coll, st, e2, hm, hk, hc⟩ := usi_split_ok_inv hsplit
  subst hc
  simp only at hpxd hrun hinterp
  -- decompose the collection search
  obtain ⟨pre, rest, hs, hi, hscan⟩ := mzSearch_sound hm
  obtain ⟨rest2, hrest, hcollfacts⟩ := scanToColon_sound hscan
  -- decompose the keyword search
  obtain ⟨len, hlen, he2, hleft⟩ := kwSearch_sound hk
  obtain ⟨kw, hkw, hpre, hlenval⟩ := kwMatchLen_sound hlen
  obtain ⟨u2, hu2⟩ := List.isPrefixOf_iff_prefix.mp hpre
  obtain ⟨hkwne, hkwcol, hkwlast⟩ := kw_facts kw hkw
  -- the greedy digit run
  have hdsdig : ∀ x ∈ u2.take (digitsCount u2), pyDigit x = true :=
    digitsCount_take_digits
  have hdlen : (u2.take (digitsCount u2)).length = digitsCount u2 := by
    rw [List.length_take]
    exact Nat.min_eq_left (digitsCount_le_length u2)
  have hdropkw : (s.drop st).drop (kw.length + 1) = u2 := by
    rw [← hu2]
    exact List.drop_left' (by simp)
  rw [hdropkw] at hlenval
  -- position bounds
  have hstlen : st < s.length := by
    by_contra hcon
    push_neg at hcon
    have hnil : s.drop st = [] := List.drop_eq_nil_iff.mpr hcon
    rw [hnil] at hu2
    simp at hu2
  have hinterplen : e2 + 1 < s.length := by
    by_contra hcon
    push_neg at hcon
    exact hinterp (List.drop_eq_nil_iff.mpr hcon)
  -- the tail after the keyword match
  have hrest3eq : u2.drop (digitsCount u2) = s.drop e2 := by
    have h6 : ((s.drop st).drop (kw.length + 1)).drop (digitsCount u2) =
        s.drop e2 := by
      rw [List.drop_drop, List.drop_drop]
      congr 1
      omega
    rw [← h6, hdropkw]
  cases hrest3case : u2.drop (digitsCount u2) with
  | nil =>
    exfalso
    rw [hrest3case] at hrest3eq
    have h7 := List.drop_eq_nil_iff.mp hrest3eq.symm
    omega
  | cons X interp2 =>
    have hX : pyDigit X = false := by
      apply digitsCount_stop (u := u2)
      rw [hrest3case]
      rfl
    have hinterp2 : s.drop (e2 + 1) = interp2 := by
      have h7 : (s.drop e2).drop 1 = s.drop (e2 + 1) := List.drop_drop 1 e2 s
      rw [← h7, ← hrest3eq, hrest3case]
      rfl
    -- the block before the msRun+index region
    have hsB : s = (pre ++ mzspecStr ++ coll ++ [':']) ++ rest2 := by
      rw [hs, hrest]
      simp
    have hBlen : (pre ++ mzspecStr ++ coll ++ [':']).length = i + coll.length + 1 := by
      simp [hi, mzspecStr]
      omega
    -- run region bounds
    have hsp1lt : i + coll.length + 1 < e2 := by
      by_contra hcon
      push_neg at hcon
      apply hrun
      unfold pySlice
      apply List.drop_eq_nil_iff.mpr
      rw [List.length_take]
      omega
    have htake : s.take e2 = s.take (i + coll.length + 1) ++
        pySlice (i + coll.length + 1) e2 s := by
      conv_lhs => rw [← List.take_append_drop (i + coll.length + 1) (s.take e2)]
      congr 1
      rw [List.take_take]
      congr 1
      omega
    have htakesp1 : s.take (i + coll.length + 1) = pre ++ mzspecStr ++ coll ++ [':'] := by
      rw [hsB]
      exact List.take_left' hBlen
    have hsA : s = pre ++ ((mzspecStr ++ coll ++ ':' ::
        pySlice (i + coll.length + 1) e2 s) ++ X :: interp2) := by
      conv_lhs => rw [← List.take_append_drop e2 s]
      rw [htake, htakesp1, ← hrest3eq, hrest3case]
      simp
    have hsK : s = s.take st ++ ((kw ++ ':' :: u2.take (digitsCount u2)) ++ X :: interp2) := by
      conv_lhs => rw [← List.take_append_drop st s]
      congr 1
      rw [← hu2]
      conv_lhs => rw [← List.take_append_drop (digitsCount u2) u2]
      rw [hrest3case]
      simp
    have htakestlen : (s.take st).length = st := by
      rw [List.length_take]
      omega
    have hcancel : pre ++ (mzspecStr ++ coll ++ ':' :: pySlice (i + coll.length + 1) e2 s) =
        s.take st ++ (kw ++ ':' :: u2.take (digitsCount u2)) := by
      have eq1 : (pre ++ (mzspecStr ++ coll ++ ':' ::
          pySlice (i + coll.length + 1) e2 s)) ++ (X :: interp2) = s := by
        conv_rhs => rw [hsA]
        rw [List.append_assoc]
      have eq2 : (s.take st ++ (kw ++ ':' :: u2.take (digitsCount u2))) ++
          (X :: interp2) = s := by
        conv_rhs => rw [hsK]
        rw [List.append_assoc]
      exact List.append_cancel_right (eq1.trans eq2.symm)
    have hcntkw : (kw ++ ':' :: u2.take (digitsCount u2)).count ':' = 1 := by
      rw [show kw ++ ':' :: u2.take (digitsCount u2) =
        kw ++ [':'] ++ u2.take (digitsCount u2) by simp]
      rw [List.count_append, List.count_append,
        List.count_eq_zero.mpr (fun hm2 => hkwcol ':' hm2 rfl),
        count_colon_digits hdsdig]
      rfl
    have hcntA : 2 ≤ (mzspecStr ++ coll ++ ':' ::
        pySlice (i + coll.length + 1) e2 s).count ':' := by
      rw [show mzspecStr ++ coll ++ ':' :: pySlice (i + coll.length + 1) e2 s =
        mzspecStr ++ coll ++ [':'] ++ pySlice (i + coll.length + 1) e2 s by simp]
      rw [List.count_append, List.count_append, List.count_append]
      have h1 : mzspecStr.count ':' = 1 := by decide
      have h2 : ([':'] : List Char).count ':' = 1 := by decide
      omega
    rcases List.append_eq_append_iff.mp hcancel with ⟨w2, hw2take, hw2A⟩ | ⟨c2, hc2, hc2kw⟩
    swap
    · exfalso
      have hcnt2 : (c2 ++ (mzspecStr ++ coll ++ ':' ::
          pySlice (i + coll.length + 1) e2 s)).count ':' = 1 := by
        rw [← hc2kw]
        exact hcntkw
      rw [List.count_append ':' c2 (mzspecStr ++ coll ++ ':' ::
        pySlice (i + coll.length + 1) e2 s)] at hcnt2
      omega
    · have hwlenA : w2.length + (kw.length + 1 + digitsCount u2) =
          (mzspecStr ++ coll ++ ':' :: pySlice (i + coll.length + 1) e2 s).length := by
        rw [hw2A]
        simp only [List.length_append, List.length_cons, hdlen]
        omega
      have hre : reassemble ⟨coll, pySlice (i + coll.length + 1) e2 s, s.drop (e2 + 1)⟩ =
          (mzspecStr ++ coll ++ ':' :: pySlice (i + coll.length + 1) e2 s) ++
            ':' :: interp2 := by
        rw [reassemble, hinterp2]
      have hmz2 : mzSearch ((mzspecStr ++ coll ++ ':' ::
          pySlice (i + coll.length + 1) e2 s) ++ ':' :: interp2) = some (7, coll) := by
        rw [show (mzspecStr ++ coll ++ ':' :: pySlice (i + coll.length + 1) e2 s) ++
          ':' :: interp2 = mzspecStr ++ (coll ++ ':' ::
            (pySlice (i + coll.length + 1) e2 s ++ ':' :: interp2)) by simp]
        exact mzSearch_front (scanToColon_complete hcollfacts)
      have hwlastA : ∃ lc, (mzspecStr ++ coll ++ ':' ::
          pySlice (i + coll.length + 1) e2 s).getLast? = some lc ∧ stopChar lc = true := by
        rw [hw2A, List.getLast?_append_of_ne_nil _ (by simp)]
        rw [show kw ++ ':' :: u2.take (digitsCount u2) =
          kw ++ (':' :: u2.take (digitsCount u2)) by rfl]
        rw [List.getLast?_append_of_ne_nil _ (by simp)]
        exact getLast_stop_of_digits (by decide) hdsdig
      have hkws2 : kwSearch ((mzspecStr ++ coll ++ ':' ::
          pySlice (i + coll.length + 1) e2 s) ++ ':' :: interp2) =
          some (w2.length, w2.length + len) := by
        apply kwSearch_intro
        · have hdropw2 : ((mzspecStr ++ coll ++ ':' ::
              pySlice (i + coll.length + 1) e2 s) ++ ':' :: interp2).drop w2.length =
              (kw ++ ':' :: u2.take (digitsCount u2)) ++ ':' :: interp2 := by
            rw [List.drop_append_of_le_length (by omega), hw2A, List.drop_left]
          rw [hdropw2]
          rw [show (kw ++ ':' :: u2.take (digitsCount u2)) ++ ':' :: interp2 =
            kw ++ ':' :: (u2.take (digitsCount u2) ++ ':' :: interp2) by simp]
          have hpre2 : (kw ++ [':']).isPrefixOf (kw ++ ':' ::
              (u2.take (digitsCount u2) ++ ':' :: interp2)) = true := by
            rw [List.isPrefixOf_iff_prefix,
              show kw ++ ':' :: (u2.take (digitsCount u2) ++ ':' :: interp2) =
                (kw ++ [':']) ++ (u2.take (digitsCount u2) ++ ':' :: interp2) by simp]
            exact List.prefix_append (kw ++ [':']) _
          rw [kwMatchLen_intro hkw hpre2]
          congr 1
          have hdropkw2 : (kw ++ ':' :: (u2.take (digitsCount u2) ++ ':' :: interp2)).drop
              (kw.length + 1) = u2.take (digitsCount u2) ++ ':' :: interp2 := by
            rw [show kw ++ ':' :: (u2.take (digitsCount u2) ++ ':' :: interp2) =
              (kw ++ [':']) ++ (u2.take (digitsCount u2) ++ ':' :: interp2) by simp]
            exact List.drop_left' (by simp)
          rw [hdropkw2, digitsCount_append_digits hdsdig, digitsCount_colon_cons,
            hdlen, hlenval]
          omega
        · intro q hq
          have hqA : q < (mzspecStr ++ coll ++ ':' ::
              pySlice (i + coll.length + 1) e2 s).length := by omega
          rw [List.drop_append_of_le_length (by omega)]
          apply kwMatchLen_none_transfer (X := X) (t := interp2)
          · obtain ⟨lc, hlc, hstop⟩ := hwlastA
            exact ⟨lc, by rw [getLast?_drop_of_lt hqA]; exact hlc, hstop⟩
          · have hsq : s.drop (pre.length + q) = (mzspecStr ++ coll ++ ':' ::
                pySlice (i + coll.length + 1) e2 s).drop q ++ X :: interp2 := by
              conv_lhs => rw [hsA]
              rw [List.drop_append q, List.drop_append_of_le_length (by omega)]
            rw [← hsq]
            apply hleft
            have hstval : st = pre.length + w2.length := by
              rw [← htakestlen, hw2take]
              simp
            omega
      -- assemble the reassembled parse
      have hcomp1 : pySlice (7 + coll.length + 1) (w2.length + len)
          ((mzspecStr ++ coll ++ ':' :: pySlice (i + coll.length + 1) e2 s) ++
            ':' :: interp2) = pySlice (i + coll.length + 1) e2 s := by
        rw [show (mzspecStr ++ coll ++ ':' :: pySlice (i + coll.length + 1) e2 s) ++
          ':' :: interp2 = (mzspecStr ++ coll ++ [':']) ++
            (pySlice (i + coll.length + 1) e2 s ++ ':' :: interp2) by simp]
        have h1 : 7 + coll.length + 1 = (mzspecStr ++ coll ++ [':']).length := by
          simp [mzspecStr]
          omega
        have h2 : w2.length + len = (mzspecStr ++ coll ++ [':']).length +
            (pySlice (i + coll.length + 1) e2 s).length := by
          rw [hlenval]
          rw [show (mzspecStr ++ coll ++ ':' ::
            pySlice (i + coll.length + 1) e2 s).length =
            (mzspecStr ++ coll ++ [':']).length +
              (pySlice (i + coll.length + 1) e2 s).length by simp; omega] at hwlenA
          omega
        rw [h1, h2]
        exact pySlice_middle
      have hcomp2 : ((mzspecStr ++ coll ++ ':' ::
          pySlice (i + coll.length + 1) e2 s) ++ ':' :: interp2).drop
            (w2.length + len + 1) = s.drop (e2 + 1) := by
        rw [hinterp2]
        rw [show (mzspecStr ++ coll ++ ':' :: pySlice (i + coll.length + 1) e2 s) ++
          ':' :: interp2 = ((mzspecStr ++ coll ++ ':' ::
            pySlice (i + coll.length + 1) e2 s) ++ [':']) ++ interp2 by simp]
        have hlen9 : ((mzspecStr ++ coll ++ ':' ::
            pySlice (i + coll.length + 1) e2 s) ++ [':']).length =
            w2.length + len + 1 := by
          rw [List.length_append, ← hwlenA, hlenval]
          rfl
        exact List.drop_left' hlen9
      have hsplit2 : usi_split (reassemble ⟨coll, pySlice (i + coll.length + 1) e2 s,
          s.drop (e2 + 1)⟩) = .ok ⟨coll, pySlice (i + coll.length + 1) e2 s,
            s.drop (e2 + 1)⟩ := by
        rw [hre, usi_split_eval hmz2 hkws2, hcomp1, hcomp2]
      exact ⟨hsplit2, usi_detect_of_ok hsplit2 hpxd hrun hinterp⟩

end Patpat

namespace Patpat

/-- Witness for C8: the round trip at `mzspec:PXD000001:index:5:PEP`. -/
theorem usi_roundtrip_witness :
    usi_split (reassemble ⟨['P', 'X', 'D', '0', '0', '0', '0', '0', '1'],
      ['i', 'n', 'd', 'e', 'x', ':', '5'], ['P', 'E', 'P']⟩) =
      .ok ⟨['P', 'X', 'D', '0', '0', '0', '0', '0', '1'],
        ['i', 'n', 'd', 'e', 'x', ':', '5'], ['P', 'E', 'P']⟩ ∧
    usi_detect (reassemble ⟨['P', 'X', 'D', '0', '0', '0', '0', '0', '1'],
      ['i', 'n', 'd', 'e', 'x', ':', '5'], ['P', 'E', 'P']⟩) = true :=
  usi_roundtrip exUSI
    ⟨['P', 'X', 'D', '0', '0', '0', '0', '0', '1'],
      ['i', 'n', 'd', 'e', 'x', ':', '5'], ['P', 'E', 'P']⟩
    (by decide) (by decide)

end Patpat
